import Mathlib

/-!
Verification of the fixed-size block allocation libraries
(`fixed_size_block_allocator.h`, `memory-pool.h` in three revisions, and
`intern.hpp`) against their natural-language specification.

The C code is shallowly embedded: `size_t` is modelled as `Nat` with explicit
wraparound modulo `2 ^ 64` (`szW`) at every operation where the C code can
overflow; pointers are modelled as `Option Nat` addresses (with `none` for
`NULL`); the word that the intrusive free lists store inside a free block or
slot is modelled by an explicit memory map carried in the allocator state; the
outcome of `realloc` is passed in as an explicit `Option Nat` argument (`none`
means the resize fails, `some p` means it succeeds and returns storage at
address `p`).  Platform constants follow the LP64 model the sources assume:
8-byte pointers with 8-byte alignment.
-/

namespace SingleFileLibs

/-- The number of values of `size_t`: the sources assume a 64-bit platform. -/
def szW : Nat := 2 ^ 64

/-- `sizeof(void*)` in the LP64 model. -/
def ptrSize : Nat := 8

/-- `fsba_alignof(void*)` in the LP64 model. -/
def ptrAlign : Nat := 8

/-- `(size_t)(num - 1)` on a `size_t` operand: wraps to `szW - 1` at `num = 0`. -/
def szSub1 (num : Nat) : Nat := (num + (szW - 1)) % szW

/-- `fsba_roundUp` from `fixed_size_block_allocator.h`:
`num + (multiple - (((num - 1) % multiple) + 1))` in `size_t` arithmetic. -/
def fsba_roundUp (num multiple : Nat) : Nat :=
  (num + (multiple - ((szSub1 num % multiple) + 1))) % szW

/-- `fsba_alignUp` from `fixed_size_block_allocator.h`: the same arithmetic as
`fsba_roundUp`, applied to a pointer value (modelled as an address). -/
def fsba_alignUp (ptr align : Nat) : Nat :=
  (ptr + (align - ((szSub1 ptr % align) + 1))) % szW

/-- `fsba_roundDown` from `fixed_size_block_allocator.h`: `num - (num % multiple)`. -/
def fsba_roundDown (num multiple : Nat) : Nat := num - num % multiple

/-- `fsba_GCD` from `fixed_size_block_allocator.h`: Euclid's algorithm, as the
source's `while (b != 0)` loop. -/
def fsba_GCD (a b : Nat) : Nat :=
  if b = 0 then a else fsba_GCD b (a % b)
decreasing_by exact Nat.mod_lt _ (Nat.pos_of_ne_zero (by assumption))

/-- `fsba_LCM` from `fixed_size_block_allocator.h`: `(a * b) / fsba_GCD(a, b)`,
with the product computed in `size_t` arithmetic. -/
def fsba_LCM (a b : Nat) : Nat := (a * b) % szW / fsba_GCD a b

theorem fsba_GCD_eq_gcd (a b : Nat) : fsba_GCD a b = Nat.gcd a b := by
  induction a, b using fsba_GCD.induct with
  | case1 a => rw [fsba_GCD]; simp
  | case2 a b hb ih =>
    rw [fsba_GCD, if_neg hb, ih, Nat.gcd_comm a b, Nat.gcd_rec b a, Nat.gcd_comm]

theorem fsba_LCM_eq_lcm {a b : Nat} (h : a * b < szW) : fsba_LCM a b = Nat.lcm a b := by
  rw [fsba_LCM, fsba_GCD_eq_gcd, Nat.mod_eq_of_lt h, Nat.lcm]

/-- For `1 ≤ num < szW`, the C expression `num - 1` does not wrap. -/
theorem szSub1_eq {num : Nat} (h1 : 1 ≤ num) (h2 : num < szW) : szSub1 num = num - 1 := by
  unfold szSub1 szW
  unfold szW at h2
  omega

/-- Characterization of `fsba_roundUp` away from overflow: for a positive
multiple and `1 ≤ num`, it computes `num + (multiple - 1) - ((num - 1) % multiple)`,
which is the least multiple of `multiple` that is `≥ num`. -/
theorem fsba_roundUp_eq {num multiple : Nat} (hm : 1 ≤ multiple) (h1 : 1 ≤ num)
    (h2 : num + multiple ≤ szW) :
    fsba_roundUp num multiple = num + (multiple - 1) - (num - 1) % multiple := by
  have hs : szSub1 num = num - 1 := szSub1_eq h1 (by omega)
  have hr : (num - 1) % multiple < multiple := Nat.mod_lt _ (by omega)
  unfold fsba_roundUp
  rw [hs, Nat.mod_eq_of_lt (by omega)]
  omega

theorem roundUpNat_spec {num multiple : Nat} (hm : 1 ≤ multiple) (h1 : 1 ≤ num) :
    multiple ∣ (num + (multiple - 1) - (num - 1) % multiple) ∧
    num ≤ num + (multiple - 1) - (num - 1) % multiple ∧
    num + (multiple - 1) - (num - 1) % multiple < num + multiple := by
  have hr : (num - 1) % multiple < multiple := Nat.mod_lt _ (by omega)
  have hdm := Nat.div_add_mod (num - 1) multiple
  have hmul : multiple * ((num - 1) / multiple + 1)
      = multiple * ((num - 1) / multiple) + multiple := by ring
  exact ⟨⟨(num - 1) / multiple + 1, by omega⟩, by omega, by omega⟩

/-! ## Static-arena allocator (`fixed_size_block_allocator.h`) -/

/-- `sizeof(FsbaAllocator)` in the LP64 model: four 8-byte fields. -/
def fsbaAllocatorSize : Nat := 32

/-- `fsba_alignof(FsbaAllocator)` in the LP64 model. -/
def fsbaAllocatorAlignment : Nat := 8

/-- The state of a `FsbaAllocator`, together with the link words the intrusive
free list stores inside freed blocks: `mem a` is the `void*` written at
address `a` by `fsbaFree` (`none` models `NULL`). -/
structure FsbaState where
  pFreeMemBegin : Nat
  pFreeMemEnd : Nat
  blockSize : Nat
  pFreeBlock : Option Nat
  mem : Nat → Option Nat

/-- `fsbaEmplaceAllocator`: places the allocator at the first aligned address
inside the caller's memory `[p, p + memSize)`, computes the effective block
alignment and size, and carves the remainder into blocks.  Returns the
constructed state and the reported block count, or `none` for `NULL` (the
out-of-memory exit, which reports a block count of 0).  `mem0` is the
arbitrary initial content of the caller's memory. -/
def fsbaEmplaceAllocator (pMem : Option Nat) (memSize blockSize blockAlign : Nat)
    (mem0 : Nat → Option Nat) : Option (FsbaState × Nat) :=
  match pMem with
  | none => none
  | some p =>
    let pAllocator := fsba_alignUp p fsbaAllocatorAlignment
    let effAlign := fsba_LCM blockAlign ptrAlign
    let effSize0 := if blockSize < ptrSize then ptrSize else blockSize
    let effSize := fsba_roundUp effSize0 effAlign
    let pBlockMemBegin := fsba_alignUp (pAllocator + fsbaAllocatorSize) effAlign
    let memUsed := pBlockMemBegin - p
    if memUsed > memSize then none
    else
      let effMemSize := fsba_roundDown (memSize - memUsed) effSize
      some ({ pFreeMemBegin := pBlockMemBegin,
              pFreeMemEnd := pBlockMemBegin + effMemSize,
              blockSize := effSize,
              pFreeBlock := none,
              mem := mem0 }, effMemSize / effSize)

/-- `fsbaAllocate`: pop the free list if non-empty, else bump-allocate from the
never-yet-used region, else return `NULL`. -/
def fsbaAllocate (s : FsbaState) : Option Nat × FsbaState :=
  match s.pFreeBlock with
  | some out => (some out, { s with pFreeBlock := s.mem out })
  | none =>
    if s.pFreeMemBegin ≥ s.pFreeMemEnd then (none, s)
    else (some s.pFreeMemBegin, { s with pFreeMemBegin := s.pFreeMemBegin + s.blockSize })

/-- `fsbaFree`: no-op on `NULL`; otherwise write the current free-list head
into the block and make the block the new head. -/
def fsbaFree (s : FsbaState) (pBlock : Option Nat) : FsbaState :=
  match pBlock with
  | none => s
  | some b =>
    { s with mem := fun a => if a = b then s.pFreeBlock else s.mem a,
             pFreeBlock := some b }

/-- `n` consecutive calls to `fsbaAllocate`; `none` if any of them returns `NULL`. -/
def fsbaAllocN : FsbaState → Nat → Option (List Nat × FsbaState)
  | s, 0 => some ([], s)
  | s, n + 1 =>
    match fsbaAllocate s with
    | (some b, s1) =>
      match fsbaAllocN s1 n with
      | some (bs, s2) => some (b :: bs, s2)
      | none => none
    | (none, _) => none

/-! ## Growable pool allocator (`memory-pool.h`, three revisions) -/

/-- `MP_INVALID_HANDLE = (size_t)(-1)`. -/
def MP_INVALID_HANDLE : Nat := szW - 1

/-- The state of a `MemPool`, together with the intrusive link words: `mem h`
is the `size_t` stored at byte offset `h * blockSize` inside the backing
storage (the `*_mpNext(this, h)` word).  `pBlocks` is the storage address
(`none` models `NULL`). -/
structure MemPoolInfo where
  pBlocks : Option Nat
  capacity : Nat
  hFreeArray : Nat
  hFreeList : Nat
  blockSize : Nat
  mem : Nat → Nat

/-- `_mpResize` / `mpResize_`: `realloc` to `capacity * blockSize` bytes.  The
outcome of `realloc` is the explicit argument `r` (`none`: allocation failure,
returning -1 with no mutation; `some p`: success with new storage address `p`). -/
def mpResize (r : Option Nat) (s : MemPoolInfo) (capacity : Nat) : Int × MemPoolInfo :=
  match r with
  | none => (-1, s)
  | some p => (0, { s with pBlocks := some p, capacity := capacity })

/-- `mpGrowPoolEx` / `mpGrowPool_` from `memory-pool.h`: checks `capacity + num`
for `size_t` overflow before resizing. -/
def mpGrowPoolEx (r : Option Nat) (s : MemPoolInfo) (num : Nat) : Int × MemPoolInfo :=
  let newCapacity := (s.capacity + num) % szW
  if newCapacity < s.capacity then (-1, s)
  else mpResize r s newCapacity

/-- `mpGrowPoolEx` from the `part_002` revision: no overflow check. -/
def mpGrowPoolEx002 (r : Option Nat) (s : MemPoolInfo) (num : Nat) : Int × MemPoolInfo :=
  mpResize r s ((s.capacity + num) % szW)

/-- Pointwise update of the modelled link-word memory. -/
def mpUpdateMem (m : Nat → Nat) (h v : Nat) : Nat → Nat :=
  fun x => if x = h then v else m x

/-- `mpFreeEx` (both the `MemPoolInfo` revision of `memory-pool.h` and
`part_002`) and `mpFree` from `part_001`: identical bodies, guarded against
the `MP_INVALID_HANDLE` sentinel. -/
def mpFreeEx (s : MemPoolInfo) (handle : Nat) : MemPoolInfo :=
  if handle ≠ MP_INVALID_HANDLE then
    { s with mem := mpUpdateMem s.mem handle s.hFreeList, hFreeList := handle }
  else s

/-- `mpFree_` from the second revision in `memory-pool.h` (lines 420-424):
the intrusive write is performed unconditionally, with no sentinel check. -/
def mpFree_ (s : MemPoolInfo) (handle : Nat) : MemPoolInfo :=
  { s with mem := mpUpdateMem s.mem handle s.hFreeList, hFreeList := handle }

/-- `mpAllocEx` / `mpAlloc_` from `memory-pool.h`: pop the free list if
non-empty; else if the bump cursor reached capacity, grow by 3/2 (with a
+1 bump when the division rounds down to no growth, and an overflow guard);
then hand out the slot at the bump cursor. -/
def mpAllocEx (r : Option Nat) (s : MemPoolInfo) : Nat × MemPoolInfo :=
  if s.hFreeList ≠ MP_INVALID_HANDLE then
    (s.hFreeList, { s with hFreeList := s.mem s.hFreeList })
  else if s.hFreeArray ≥ s.capacity then
    let newCapacity := s.capacity * 3 % szW / 2
    if newCapacity < s.capacity then (MP_INVALID_HANDLE, s)
    else
      let newCapacity2 := if newCapacity = s.capacity then (newCapacity + 1) % szW
                          else newCapacity
      match mpResize r s newCapacity2 with
      | (0, s1) => (s1.hFreeArray, { s1 with hFreeArray := (s1.hFreeArray + 1) % szW })
      | (_, s1) => (MP_INVALID_HANDLE, s1)
  else (s.hFreeArray, { s with hFreeArray := (s.hFreeArray + 1) % szW })

/-- `mpAlloc` from the `part_001` revision: grows to `capacity * 3 / 2` with
neither the minimum-increment bump nor the overflow guard. -/
def mpAlloc001 (r : Option Nat) (s : MemPoolInfo) : Nat × MemPoolInfo :=
  if s.hFreeList ≠ MP_INVALID_HANDLE then
    (s.hFreeList, { s with hFreeList := s.mem s.hFreeList })
  else if s.hFreeArray ≥ s.capacity then
    match mpResize r s (s.capacity * 3 % szW / 2) with
    | (0, s1) => (s1.hFreeArray, { s1 with hFreeArray := (s1.hFreeArray + 1) % szW })
    | (_, s1) => (MP_INVALID_HANDLE, s1)
  else (s.hFreeArray, { s with hFreeArray := (s.hFreeArray + 1) % szW })

/-- `mpAllocEx` from the `part_002` revision: substitutes a default initial
capacity of 16 when `capacity * 3 / 2` is 0, with no other minimum increment. -/
def mpAllocEx002 (r : Option Nat) (s : MemPoolInfo) : Nat × MemPoolInfo :=
  if s.hFreeList ≠ MP_INVALID_HANDLE then
    (s.hFreeList, { s with hFreeList := s.mem s.hFreeList })
  else if s.hFreeArray ≥ s.capacity then
    let newCapacity := s.capacity * 3 % szW / 2
    let newCapacity2 := if newCapacity = 0 then 16 else newCapacity
    match mpResize r s newCapacity2 with
    | (0, s1) => (s1.hFreeArray, { s1 with hFreeArray := (s1.hFreeArray + 1) % szW })
    | (_, s1) => (MP_INVALID_HANDLE, s1)
  else (s.hFreeArray, { s with hFreeArray := (s.hFreeArray + 1) % szW })

/-! ## Demo states for witnesses -/

/-- A concrete arena state: 10 blocks of 8 bytes at addresses 1000..1080. -/
def fsbaDemoState : FsbaState :=
  { pFreeMemBegin := 1000, pFreeMemEnd := 1080, blockSize := 8,
    pFreeBlock := none, mem := fun _ => none }

/-- A concrete pool state: capacity 4, two slots handed out, empty free list. -/
def mpDemoState : MemPoolInfo :=
  { pBlocks := some 4096, capacity := 4, hFreeArray := 2,
    hFreeList := MP_INVALID_HANDLE, blockSize := 8, mem := fun _ => 0 }

/-! ## Claim theorems -/

theorem le_of_multiples {a p r q : Nat} (hdr : a ∣ r) (hdq : a ∣ q) (hpq : p ≤ q)
    (hr : r < p + a) : r ≤ q := by
  rcases Nat.lt_or_ge q r with h | h
  · have hd : a ∣ r - q := Nat.dvd_sub' hdr hdq
    have : a ≤ r - q := Nat.le_of_dvd (by omega) hd
    omega
  · exact h

/-- C8: for every `p ≥ 1` and positive alignment `a` in the range where the
`size_t` arithmetic does not wrap, `fsba_alignUp p a` and `fsba_roundUp p a`
return the smallest multiple of `a` that is `≥ p`; in particular, a `p` that is
already a multiple of `a` is returned unchanged. -/
theorem claim_C8_alignment_utils (p a : Nat) (ha : 1 ≤ a) (hp : 1 ≤ p)
    (hov : p + a ≤ szW) :
    (a ∣ fsba_alignUp p a ∧ p ≤ fsba_alignUp p a ∧
      (∀ q, a ∣ q → p ≤ q → fsba_alignUp p a ≤ q) ∧
      (a ∣ p → fsba_alignUp p a = p)) ∧
    (a ∣ fsba_roundUp p a ∧ p ≤ fsba_roundUp p a ∧
      (∀ q, a ∣ q → p ≤ q → fsba_roundUp p a ≤ q) ∧
      (a ∣ p → fsba_roundUp p a = p)) := by
  have hris : fsba_roundUp p a = p + (a - 1) - (p - 1) % a := fsba_roundUp_eq ha hp hov
  have hali : fsba_alignUp p a = fsba_roundUp p a := rfl
  obtain ⟨hdvd, hge, hlt⟩ := @roundUpNat_spec p a ha hp
  rw [← hris] at hdvd hge hlt
  have hleast : ∀ q, a ∣ q → p ≤ q → fsba_roundUp p a ≤ q := by
    intro q hdq hpq
    exact le_of_multiples hdvd hdq hpq hlt
  have hfix : a ∣ p → fsba_roundUp p a = p := by
    intro hdp
    exact Nat.le_antisymm (hleast p hdp le_rfl) hge
  rw [hali]
  exact ⟨⟨hdvd, hge, hleast, hfix⟩, hdvd, hge, hleast, hfix⟩

theorem claim_C8_witness :
    (1 ≤ (8 : Nat) ∧ 1 ≤ (21 : Nat) ∧ 21 + 8 ≤ szW) ∧
    (8 ∣ fsba_alignUp 21 8 ∧ 21 ≤ fsba_alignUp 21 8 ∧ 8 ∣ fsba_roundUp 21 8) :=
  ⟨⟨by decide, by decide, by decide⟩,
   (claim_C8_alignment_utils 21 8 (by decide) (by decide) (by decide)).1.1,
   (claim_C8_alignment_utils 21 8 (by decide) (by decide) (by decide)).1.2.1,
   (claim_C8_alignment_utils 21 8 (by decide) (by decide) (by decide)).2.1⟩

/-- C1: LIFO free-list round-trip.  Freeing a non-`NULL` arena block and
immediately allocating returns that block; freeing a valid pool handle and
immediately allocating returns that handle (for any `realloc` oracle, since the
free list is consulted before any growth). -/
theorem claim_C1_lifo_roundtrip :
    (∀ (s : FsbaState) (b : Nat), (fsbaAllocate (fsbaFree s (some b))).1 = some b) ∧
    (∀ (s : MemPoolInfo) (h : Nat) (r : Option Nat), h ≠ MP_INVALID_HANDLE →
      (mpAllocEx r (mpFreeEx s h)).1 = h) := by
  constructor
  · intro s b
    simp [fsbaAllocate, fsbaFree]
  · intro s h r hne
    simp [mpFreeEx, mpAllocEx, hne]

theorem claim_C1_witness :
    ((5 : Nat) ≠ MP_INVALID_HANDLE) ∧
    (fsbaAllocate (fsbaFree fsbaDemoState (some 1008))).1 = some 1008 ∧
    (mpAllocEx none (mpFreeEx mpDemoState 5)).1 = 5 :=
  ⟨by decide,
   claim_C1_lifo_roundtrip.1 fsbaDemoState 1008,
   claim_C1_lifo_roundtrip.2 mpDemoState 5 none (by decide)⟩

/-- A concrete pool state whose bump cursor has reached its capacity. -/
def mpFullState : MemPoolInfo :=
  { pBlocks := some 4096, capacity := 4, hFreeArray := 4,
    hFreeList := MP_INVALID_HANDLE, blockSize := 8, mem := fun _ => 0 }

/-- Pool state exhibiting the `part_001` growth-policy gap: capacity 1, bump
cursor at capacity, empty free list. -/
def mpC2State : MemPoolInfo :=
  { pBlocks := some 64, capacity := 1, hFreeArray := 1,
    hFreeList := MP_INVALID_HANDLE, blockSize := 8, mem := fun _ => 0 }

/-- C2 counterexample: in the `part_001` revision, `mpAlloc` on a pool with
capacity 1, empty free list and bump cursor 1, with `realloc` succeeding,
neither grows the capacity beyond 1 nor returns the invalid-handle sentinel
(it hands out out-of-range slot 1), refuting the claim's minimum-increment
growth for that revision. -/
theorem claim_C2_counterexample :
    mpC2State.hFreeList = MP_INVALID_HANDLE ∧
    mpC2State.hFreeArray = mpC2State.capacity ∧
    (mpAlloc001 (some 64) mpC2State).1 ≠ MP_INVALID_HANDLE ∧
    (mpAlloc001 (some 64) mpC2State).2.capacity = mpC2State.capacity := by
  refine ⟨rfl, rfl, by decide, rfl⟩

/-- C2 (amended): the growth policy as claimed holds for `mpAllocEx` /
`mpAlloc_` of `memory-pool.h`: with an empty free list, the bump cursor at
capacity `c`, and `c * 3` not overflowing `size_t`, a failing resize leaves the
pool unchanged and returns the sentinel, and a successful resize sets the
capacity to `c * 3 / 2` bumped to `c + 1` when the division rounds down to no
growth — strictly exceeding `c` — and hands out the slot at the bump cursor. -/
theorem claim_C2_growth_policy (s : MemPoolInfo) (hfl : s.hFreeList = MP_INVALID_HANDLE)
    (hcur : s.hFreeArray = s.capacity) (hov : s.capacity * 3 < szW) :
    mpAllocEx none s = (MP_INVALID_HANDLE, s) ∧
    (∀ p, (mpAllocEx (some p) s).1 = s.capacity ∧
      (mpAllocEx (some p) s).2.capacity =
        (if s.capacity * 3 / 2 = s.capacity then s.capacity + 1 else s.capacity * 3 / 2) ∧
      s.capacity < (mpAllocEx (some p) s).2.capacity) := by
  have hmod : s.capacity * 3 % szW = s.capacity * 3 := Nat.mod_eq_of_lt hov
  have hge : s.capacity ≤ s.capacity * 3 / 2 := by
    calc s.capacity = s.capacity * 2 / 2 := by omega
    _ ≤ s.capacity * 3 / 2 := Nat.div_le_div_right (by omega)
  have hsmall : s.capacity * 3 / 2 + 1 < szW := by
    have : s.capacity * 3 / 2 ≤ s.capacity * 3 := Nat.div_le_self _ _
    have hW : 2 ^ 64 = szW := rfl
    omega
  constructor
  · unfold mpAllocEx
    rw [if_neg (by simp [hfl]), if_pos (by omega), hmod, if_neg (by omega)]
    simp [mpResize]
  · intro p
    unfold mpAllocEx
    rw [if_neg (by simp [hfl]), if_pos (by omega), hmod, if_neg (by omega)]
    by_cases hc : s.capacity * 3 / 2 = s.capacity
    · rw [if_pos hc, if_pos hc]
      simp [mpResize, Nat.mod_eq_of_lt (by omega : s.capacity * 3 / 2 + 1 < szW), hcur]
      omega
    · rw [if_neg hc, if_neg hc]
      simp [mpResize, hcur]
      omega

theorem claim_C2_witness :
    (mpFullState.hFreeList = MP_INVALID_HANDLE ∧
      mpFullState.hFreeArray = mpFullState.capacity ∧
      mpFullState.capacity * 3 < szW) ∧
    (mpAllocEx none mpFullState = (MP_INVALID_HANDLE, mpFullState) ∧
      mpFullState.capacity < (mpAllocEx (some 8192) mpFullState).2.capacity) := by
  refine ⟨⟨rfl, by decide, by decide⟩, ?_, ?_⟩
  · exact (claim_C2_growth_policy mpFullState rfl (by decide) (by decide)).1
  · exact ((claim_C2_growth_policy mpFullState rfl (by decide) (by decide)).2 8192).2.2

/-- Pool state at the `size_t` capacity boundary, for the C3 counterexample. -/
def mpC3State : MemPoolInfo :=
  { pBlocks := some 64, capacity := szW - 1, hFreeArray := 0,
    hFreeList := MP_INVALID_HANDLE, blockSize := 8, mem := fun _ => 0 }

/-- C3 counterexample: in the `part_002` revision, `mpGrowPoolEx` performs no
overflow check: growing a pool of capacity `2^64 - 1` by 1 slot (with `realloc`
succeeding) wraps `capacity + num` to 0, reports success (0, not -1), and
mutates the capacity — refuting the claim's atomic failure for that revision. -/
theorem claim_C3_counterexample :
    (mpC3State.capacity + 1) % szW < mpC3State.capacity ∧
    (mpGrowPoolEx002 (some 64) mpC3State 1).1 = 0 ∧
    (mpGrowPoolEx002 (some 64) mpC3State 1).2.capacity ≠ mpC3State.capacity := by
  refine ⟨by decide, rfl, by decide⟩

/-- C3 (amended): `mpGrowPoolEx` / `mpGrowPool_` of `memory-pool.h` checks
`capacity + num` for overflow before resizing and, when the sum overflows (for
every `realloc` outcome) or the resize itself fails, returns -1 with the pool
state — storage pointer, capacity, free-list head, bump cursor, and stored
links — exactly as before the call. -/
theorem claim_C3_growby_atomicity (s : MemPoolInfo) (num : Nat) :
    ((s.capacity + num) % szW < s.capacity →
      ∀ r, mpGrowPoolEx r s num = (-1, s)) ∧
    mpGrowPoolEx none s num = (-1, s) := by
  constructor
  · intro hov r
    unfold mpGrowPoolEx
    rw [if_pos hov]
  · unfold mpGrowPoolEx
    by_cases hov : (s.capacity + num) % szW < s.capacity
    · rw [if_pos hov]
    · rw [if_neg hov]
      simp [mpResize]

theorem claim_C3_witness :
    ((mpC3State.capacity + 2) % szW < mpC3State.capacity) ∧
    mpGrowPoolEx (some 123) mpC3State 2 = (-1, mpC3State) ∧
    mpGrowPoolEx none mpDemoState 10 = (-1, mpDemoState) :=
  ⟨by decide,
   (claim_C3_growby_atomicity mpC3State 2).1 (by decide) (some 123),
   (claim_C3_growby_atomicity mpDemoState 10).2⟩

/-- Pool state with a non-sentinel free-list head, for the C5 counterexample. -/
def mpC5State : MemPoolInfo :=
  { pBlocks := some 64, capacity := 4, hFreeArray := 4,
    hFreeList := 2, blockSize := 8, mem := fun _ => 0 }

/-- C5 counterexample: the `mpFree_` revision in `memory-pool.h` performs the
intrusive write unconditionally: freeing `MP_INVALID_HANDLE` overwrites the
free-list head and writes the old head into the (out-of-range) slot
`2^64 - 1`, so it is not a no-op. -/
theorem claim_C5_counterexample :
    (mpFree_ mpC5State MP_INVALID_HANDLE).hFreeList ≠ mpC5State.hFreeList ∧
    (mpFree_ mpC5State MP_INVALID_HANDLE).mem MP_INVALID_HANDLE
      ≠ mpC5State.mem MP_INVALID_HANDLE := by
  refine ⟨by decide, by decide⟩

/-- C5 (amended): freeing the `MP_INVALID_HANDLE` sentinel is a defined no-op
— the entire pool state is returned unchanged — for `mpFreeEx` (the
`MemPoolInfo` revisions of `memory-pool.h` and `part_002`) and `part_001`'s
`mpFree`, which share this guarded body; the unguarded `mpFree_` revision does
not have this property. -/
theorem claim_C5_free_sentinel_noop (s : MemPoolInfo) :
    mpFreeEx s MP_INVALID_HANDLE = s := by
  simp [mpFreeEx]

/-- Facts established by a successful `fsbaEmplaceAllocator`, under bounds
keeping the `size_t` arithmetic away from wraparound: the effective block size
is positive, the carved region is exactly `N` blocks, and the free list starts
empty. -/
theorem fsbaEmplace_success {p memSize blockSize blockAlign : Nat}
    {mem0 : Nat → Option Nat} {s : FsbaState} {N : Nat}
    (hA : 1 ≤ blockAlign) (hA2 : blockAlign * ptrAlign < szW)
    (hB : (if blockSize < ptrSize then ptrSize else blockSize)
            + Nat.lcm blockAlign ptrAlign ≤ szW)
    (hE : fsbaEmplaceAllocator (some p) memSize blockSize blockAlign mem0 = some (s, N)) :
    0 < s.blockSize ∧ s.pFreeMemEnd = s.pFreeMemBegin + N * s.blockSize ∧
      s.pFreeBlock = none := by
  have hLCM : fsba_LCM blockAlign ptrAlign = Nat.lcm blockAlign ptrAlign :=
    fsba_LCM_eq_lcm hA2
  have hApos : 0 < Nat.lcm blockAlign ptrAlign :=
    Nat.pos_of_ne_zero (Nat.lcm_ne_zero (by omega) (by decide))
  have hS0 : 1 ≤ (if blockSize < ptrSize then ptrSize else blockSize) := by
    have hp1 : (1 : Nat) ≤ ptrSize := by decide
    by_cases hbs : blockSize < ptrSize
    · simpa [hbs]
    · simp only [if_neg hbs]
      omega
  have hRU : fsba_roundUp (if blockSize < ptrSize then ptrSize else blockSize)
        (Nat.lcm blockAlign ptrAlign)
      = (if blockSize < ptrSize then ptrSize else blockSize)
          + (Nat.lcm blockAlign ptrAlign - 1)
          - ((if blockSize < ptrSize then ptrSize else blockSize) - 1)
              % Nat.lcm blockAlign ptrAlign :=
    fsba_roundUp_eq hApos hS0 hB
  obtain ⟨hdvd, hge, hlt⟩ := @roundUpNat_spec
    (if blockSize < ptrSize then ptrSize else blockSize) (Nat.lcm blockAlign ptrAlign)
    hApos hS0
  rw [← hRU] at hdvd hge hlt
  have hbspos : 0 < fsba_roundUp (if blockSize < ptrSize then ptrSize else blockSize)
      (Nat.lcm blockAlign ptrAlign) := by omega
  simp only [fsbaEmplaceAllocator, hLCM] at hE
  split at hE
  · exact absurd hE (by simp)
  · injection Option.some.inj hE with h1 h2
    subst h1
    subst h2
    refine ⟨hbspos, ?_, rfl⟩
    show _ + fsba_roundDown _ _ = _ + _ / _ * _
    simp only [fsba_roundDown]
    rw [Nat.div_mul_cancel (Nat.dvd_sub_mod _)]

/-- With an empty free list and exactly `k` blocks of never-yet-used space,
`k` bump allocations all succeed and leave the cursor exactly at the end of
the region. -/
theorem fsbaAllocN_bump : ∀ (k : Nat) (s : FsbaState), s.pFreeBlock = none →
    0 < s.blockSize → s.pFreeMemEnd = s.pFreeMemBegin + k * s.blockSize →
    ∃ bs s2, fsbaAllocN s k = some (bs, s2) ∧ s2.pFreeBlock = none ∧
      s2.pFreeMemBegin = s.pFreeMemEnd ∧ s2.pFreeMemEnd = s.pFreeMemEnd ∧
      s2.blockSize = s.blockSize := by
  intro k
  induction k with
  | zero =>
    intro s hfb hbs hend
    exact ⟨[], s, rfl, hfb, by omega, rfl, rfl⟩
  | succ k ih =>
    intro s hfb hbs hend
    have hmul : (k + 1) * s.blockSize = k * s.blockSize + s.blockSize := by ring
    have hlt : s.pFreeMemBegin < s.pFreeMemEnd := by omega
    have hstep : fsbaAllocate s =
        (some s.pFreeMemBegin, { s with pFreeMemBegin := s.pFreeMemBegin + s.blockSize }) := by
      unfold fsbaAllocate
      rw [hfb]
      simp only [if_neg (by omega : ¬ s.pFreeMemBegin ≥ s.pFreeMemEnd)]
    have hend2 : s.pFreeMemEnd = s.pFreeMemBegin + s.blockSize + k * s.blockSize := by omega
    obtain ⟨bs, s2, hrun, h1, h2, h3, h4⟩ :=
      ih { s with pFreeMemBegin := s.pFreeMemBegin + s.blockSize } hfb hbs (by simpa using hend2)
    refine ⟨s.pFreeMemBegin :: bs, s2, ?_, h1, by simpa using h2, by simpa using h3, h4⟩
    simp [fsbaAllocN, hstep, hrun]

/-- C4: a static arena successfully constructed with a reported block count of
`N` (under bounds keeping the construction arithmetic away from `size_t`
wraparound) serves exactly `N` allocations; the `(N+1)`-th returns `NULL`, and
after freeing any one allocated block the next allocation succeeds, returning
that block. -/
theorem claim_C4_arena_exhaustion (p memSize blockSize blockAlign N : Nat)
    (mem0 : Nat → Option Nat) (s0 : FsbaState)
    (hA : 1 ≤ blockAlign) (hA2 : blockAlign * ptrAlign < szW)
    (hB : (if blockSize < ptrSize then ptrSize else blockSize)
            + Nat.lcm blockAlign ptrAlign ≤ szW)
    (hE : fsbaEmplaceAllocator (some p) memSize blockSize blockAlign mem0 = some (s0, N)) :
    ∃ bs sN, fsbaAllocN s0 N = some (bs, sN) ∧
      (fsbaAllocate sN).1 = none ∧
      ∀ b ∈ bs, (fsbaAllocate (fsbaFree sN (some b))).1 = some b := by
  obtain ⟨hbs, hend, hfb⟩ := fsbaEmplace_success hA hA2 hB hE
  obtain ⟨bs, sN, hrun, h1, h2, h3, h4⟩ := fsbaAllocN_bump N s0 hfb hbs hend
  refine ⟨bs, sN, hrun, ?_, ?_⟩
  · unfold fsbaAllocate
    rw [h1]
    simp only [if_pos (by omega : sN.pFreeMemBegin ≥ sN.pFreeMemEnd)]
  · intro b _
    simp [fsbaAllocate, fsbaFree]

/-- The arena state produced by the concrete witness construction below:
control structure in `[8, 40)`, 16 blocks of 8 bytes in `[40, 168)`. -/
def fsbaC4State : FsbaState :=
  { pFreeMemBegin := 40, pFreeMemEnd := 168, blockSize := 8,
    pFreeBlock := none, mem := fun _ => none }

/-- The concrete arena construction of the spec's scenario: 160 bytes at
address 8, block size 8, alignment 8, gives 16 blocks at `[40, 168)`. -/
theorem fsbaC4_emplace :
    fsbaEmplaceAllocator (some 8) 160 8 8 (fun _ => none) = some (fsbaC4State, 16) := by
  have h : fsba_LCM 8 ptrAlign = 8 := by
    rw [fsba_LCM_eq_lcm (by decide)]
    decide
  simp only [fsbaEmplaceAllocator, h, fsbaC4State]
  norm_num [fsba_alignUp, fsba_roundUp, fsba_roundDown, szSub1, szW, ptrSize,
    fsbaAllocatorSize, fsbaAllocatorAlignment]

theorem claim_C4_witness :
    (1 ≤ (8 : Nat) ∧ 8 * ptrAlign < szW ∧
      (if (8 : Nat) < ptrSize then ptrSize else 8) + Nat.lcm 8 ptrAlign ≤ szW ∧
      fsbaEmplaceAllocator (some 8) 160 8 8 (fun _ => none) = some (fsbaC4State, 16)) ∧
    (∃ bs sN, fsbaAllocN fsbaC4State 16 = some (bs, sN) ∧
      (fsbaAllocate sN).1 = none ∧
      ∀ b ∈ bs, (fsbaAllocate (fsbaFree sN (some b))).1 = some b) :=
  ⟨⟨by decide, by decide, by decide, fsbaC4_emplace⟩,
   claim_C4_arena_exhaustion 8 160 8 8 16 (fun _ => none) fsbaC4State
     (by decide) (by decide) (by decide) fsbaC4_emplace⟩

/-- The implicit arena invariant of C9: the never-yet-carved region is a
non-negative whole number of blocks. -/
def FsbaInv (s : FsbaState) : Prop :=
  0 < s.blockSize ∧ ∃ k, s.pFreeMemEnd = s.pFreeMemBegin + k * s.blockSize

/-- C9: a successful `fsbaEmplaceAllocator` (away from `size_t` wraparound)
establishes that `pFreeMemEnd - pFreeMemBegin` is a non-negative multiple of
the block size; `fsbaAllocate` and `fsbaFree` preserve this; consequently the
bump cursor never passes `pFreeMemEnd`, and every bump-allocated block ends at
or before `pFreeMemEnd`. -/
theorem claim_C9_bump_invariant :
    (∀ p memSize blockSize blockAlign mem0 s0 N,
      1 ≤ blockAlign → blockAlign * ptrAlign < szW →
      (if blockSize < ptrSize then ptrSize else blockSize)
          + Nat.lcm blockAlign ptrAlign ≤ szW →
      fsbaEmplaceAllocator (some p) memSize blockSize blockAlign mem0 = some (s0, N) →
      FsbaInv s0) ∧
    (∀ s, FsbaInv s → FsbaInv (fsbaAllocate s).2 ∧
      (fsbaAllocate s).2.pFreeMemBegin ≤ (fsbaAllocate s).2.pFreeMemEnd ∧
      (∀ out, s.pFreeBlock = none → (fsbaAllocate s).1 = some out →
        out + s.blockSize ≤ s.pFreeMemEnd)) ∧
    (∀ s b, FsbaInv s → FsbaInv (fsbaFree s b)) := by
  refine ⟨?_, ?_, ?_⟩
  · intro p memSize blockSize blockAlign mem0 s0 N hA hA2 hB hE
    obtain ⟨hbs, hend, _⟩ := fsbaEmplace_success hA hA2 hB hE
    exact ⟨hbs, N, hend⟩
  · intro s hInv
    obtain ⟨hbs, k, hend⟩ := hInv
    have key : FsbaInv (fsbaAllocate s).2 ∧
        (∀ out, s.pFreeBlock = none → (fsbaAllocate s).1 = some out →
          out + s.blockSize ≤ s.pFreeMemEnd) := by
      unfold fsbaAllocate
      match hfb : s.pFreeBlock with
      | some out =>
        exact ⟨⟨hbs, k, hend⟩, fun out hnone => by cases hnone⟩
      | none =>
        by_cases hge : s.pFreeMemBegin ≥ s.pFreeMemEnd
        · simp only [if_pos hge]
          exact ⟨⟨hbs, k, hend⟩, fun out _ h => by cases h⟩
        · simp only [if_neg hge]
          have hk : 1 ≤ k := by
            rcases Nat.eq_zero_or_pos k with h0 | h1
            · subst h0; omega
            · exact h1
          refine ⟨⟨hbs, k - 1, ?_⟩, ?_⟩
          · show s.pFreeMemEnd = s.pFreeMemBegin + s.blockSize + (k - 1) * s.blockSize
            have : k * s.blockSize = s.blockSize + (k - 1) * s.blockSize := by
              cases k with
              | zero => omega
              | succ k2 => simp [Nat.succ_mul]; ring
            omega
          · intro out _ hout
            injection hout with hout2
            subst hout2
            have : 1 * s.blockSize ≤ k * s.blockSize := Nat.mul_le_mul_right _ hk
            omega
    obtain ⟨hInv2, hsafe⟩ := key
    refine ⟨hInv2, ?_, hsafe⟩
    obtain ⟨_, k2, hend2⟩ := hInv2
    omega
  · intro s b hInv
    obtain ⟨hbs, k, hend⟩ := hInv
    cases b with
    | none => exact ⟨hbs, k, hend⟩
    | some a => exact ⟨hbs, k, hend⟩

theorem claim_C9_witness :
    FsbaInv fsbaDemoState ∧ FsbaInv (fsbaAllocate fsbaDemoState).2 ∧
    FsbaInv (fsbaFree fsbaDemoState (some 1000)) :=
  ⟨⟨by decide, 10, by decide⟩,
   (claim_C9_bump_invariant.2.1 fsbaDemoState ⟨by decide, 10, by decide⟩).1,
   claim_C9_bump_invariant.2.2 fsbaDemoState (some 1000) ⟨by decide, 10, by decide⟩⟩

/-! ## Value interning (`intern.hpp`)

The global `std::unordered_map<T, Size>` is modelled as an association list of
entries `(id, value, refcount)`; `id` is an allocation counter standing for
the address of the map node (`unordered_map` nodes are pointer-stable), so
handle equality (`operator==`, pointer comparison) is `id` equality.  A live
`interned<T>` handle is its `ptr` field, modelled as the `id` it points to. -/

/-- The process-wide interning store: entries `(id, value, refcount)` plus the
next fresh node id. -/
structure InternStore (α : Type) where
  entries : List (Nat × α × Nat)
  nextId : Nat

variable {α : Type} [DecidableEq α]

/-- Lookup by value, as `map.find` / the lookup step of `map.insert`. -/
def findValL (l : List (Nat × α × Nat)) (v : α) : Option (Nat × α × Nat) :=
  l.find? (fun e => decide (e.2.1 = v))

/-- Lookup by node id (pointer), as dereferencing `ptr`. -/
def findIdL (l : List (Nat × α × Nat)) (i : Nat) : Option (Nat × α × Nat) :=
  l.find? (fun e => decide (e.1 = i))

/-- `pPair->second += 1` on the entry `ptr` points to. -/
def incRefL (l : List (Nat × α × Nat)) (i : Nat) : List (Nat × α × Nat) :=
  l.map (fun e => if e.1 = i then (e.1, e.2.1, e.2.2 + 1) else e)

/-- `ptr->second -= 1` on the entry `ptr` points to. -/
def decRefL (l : List (Nat × α × Nat)) (i : Nat) : List (Nat × α × Nat) :=
  l.map (fun e => if e.1 = i then (e.1, e.2.1, e.2.2 - 1) else e)

/-- `map.erase(key)`: removes the entry stored under `key` (value equality). -/
def eraseValL (l : List (Nat × α × Nat)) (v : α) : List (Nat × α × Nat) :=
  l.filter (fun e => decide (¬ e.2.1 = v))

/-- `interned::release` on a non-null `ptr` pointing at node `i`: erase the
entry (by its key, `ptr->first`) when its refcount is `≤ 1`, else decrement. -/
def releaseL (l : List (Nat × α × Nat)) (i : Nat) : List (Nat × α × Nat) :=
  match findIdL l i with
  | none => l
  | some e => if e.2.2 ≤ 1 then eraseValL l e.2.1 else decRefL l i

/-- `map.insert({value, 0})`: returns the existing node for `value` when
present, else appends a fresh node `(nextId, value, 0)`. -/
def insertVal (s : InternStore α) (v : α) : Nat × InternStore α :=
  match findValL s.entries v with
  | some e => (e.1, s)
  | none => (s.nextId, ⟨s.entries ++ [(s.nextId, v, 0)], s.nextId + 1⟩)

/-- `interned::acquire(pPair)` as it acts on the store: increment the new
entry's refcount first, then release the handle's previous reference `old`
(`none` models a null `ptr`, as in the constructors). -/
def acquireS (s : InternStore α) (old : Option Nat) (tgt : Nat) : InternStore α :=
  let s1 : InternStore α := ⟨incRefL s.entries tgt, s.nextId⟩
  match old with
  | none => s1
  | some o => ⟨releaseL s1.entries o, s1.nextId⟩

/-- `interned(const T& value)`: insert then acquire; returns the new `ptr`. -/
def internFromValue (s : InternStore α) (v : α) : Nat × InternStore α :=
  match insertVal s v with
  | (id, s1) => (id, acquireS s1 none id)

/-- `interned(const interned&)` / `interned(interned&&)`: acquire `other.ptr`. -/
def internCopy (s : InternStore α) (otherPtr : Nat) : Nat × InternStore α :=
  (otherPtr, acquireS s none otherPtr)

/-- `operator=(const T& value)` on a live handle whose `ptr` is `selfPtr`:
insert, then acquire the found node while releasing the old reference. -/
def internAssignValue (s : InternStore α) (selfPtr : Nat) (v : α) :
    Nat × InternStore α :=
  match insertVal s v with
  | (id, s1) => (id, acquireS s1 (some selfPtr) id)

/-- `~interned()` on a live handle: release. -/
def internDestroy (s : InternStore α) (selfPtr : Nat) : InternStore α :=
  ⟨releaseL s.entries selfPtr, s.nextId⟩

/-- `interned<T>::size()`: the number of live entries in the store. -/
def internSize (s : InternStore α) : Nat := s.entries.length

/-- A store together with the multiset (list) of all live handles' `ptr`s. -/
structure InternSys (α : Type) where
  store : InternStore α
  handles : List Nat

/-- Construct a new handle from a value. -/
def sysFromValue (sys : InternSys α) (v : α) : InternSys α :=
  match internFromValue sys.store v with
  | (h, st) => ⟨st, h :: sys.handles⟩

/-- Copy-construct a new handle from the live handle at index `i`. -/
def sysCopyCon (sys : InternSys α) (i : Nat) : InternSys α :=
  match sys.handles.get? i with
  | none => sys
  | some h => ⟨(internCopy sys.store h).2, h :: sys.handles⟩

/-- Move-construct a new handle from the live handle at index `i`: the source
acquires `other.ptr` exactly as the copy constructor does and leaves the
moved-from handle intact. -/
def sysMoveCon (sys : InternSys α) (i : Nat) : InternSys α :=
  match sys.handles.get? i with
  | none => sys
  | some h => ⟨(internCopy sys.store h).2, h :: sys.handles⟩

/-- Destroy the handle at index `i`. -/
def sysDestroy (sys : InternSys α) (i : Nat) : InternSys α :=
  match sys.handles.get? i with
  | none => sys
  | some h => ⟨internDestroy sys.store h, sys.handles.eraseIdx i⟩

/-- Assign a value to the handle at index `i` (`operator=(const T&)`). -/
def sysAssignValue (sys : InternSys α) (i : Nat) (v : α) : InternSys α :=
  match sys.handles.get? i with
  | none => sys
  | some old =>
    match internAssignValue sys.store old v with
    | (id, st) => ⟨st, sys.handles.set i id⟩

/-- Copy-assign the handle at index `j` into the handle at index `i`
(`operator=(const interned&)`): acquire `other.ptr`, releasing the old
reference after the acquire. -/
def sysCopyAssign (sys : InternSys α) (i j : Nat) : InternSys α :=
  match sys.handles.get? i, sys.handles.get? j with
  | some old, some tgt => ⟨acquireS sys.store (some old) tgt, sys.handles.set i tgt⟩
  | _, _ => sys

/-- Move-assign (`operator=(interned&&)`): the body is identical to
copy-assignment — the moved-from handle keeps its reference. -/
def sysMoveAssign (sys : InternSys α) (i j : Nat) : InternSys α :=
  match sys.handles.get? i, sys.handles.get? j with
  | some old, some tgt => ⟨acquireS sys.store (some old) tgt, sys.handles.set i tgt⟩
  | _, _ => sys

/-- Well-formedness of entries `E` with fresh bound `n` and live-handle
multiset `H`: entry ids are fresh-bounded and unique, at most one entry per
value, every live handle points at an entry, and every entry's refcount
equals the number of live handles pointing at it (hence is at least 1). -/
def WF5 (E : List (Nat × α × Nat)) (n : Nat) (H : List Nat) : Prop :=
  (∀ e ∈ E, e.1 < n) ∧
  E.Pairwise (fun a b => a.1 ≠ b.1) ∧
  E.Pairwise (fun a b => a.2.1 ≠ b.2.1) ∧
  (∀ h ∈ H, ∃ e ∈ E, e.1 = h) ∧
  (∀ e ∈ E, e.2.2 = H.count e.1 ∧ 1 ≤ e.2.2)

/-- Well-formedness of a system of live handles over the interning store. -/
def SysWF (sys : InternSys α) : Prop :=
  WF5 sys.store.entries sys.store.nextId sys.handles

/-! ### List-level lemmas about the interning store -/

theorem find?_eq_some_of_mem {β : Type} {p : β → Bool} {l : List β} {e : β}
    (he : e ∈ l) (hpe : p e = true) (huniq : ∀ a ∈ l, p a = true → a = e) :
    l.find? p = some e := by
  induction l with
  | nil => cases he
  | cons a t ih =>
    by_cases hpa : p a = true
    · have : a = e := huniq a (List.mem_cons_self a t) hpa
      subst this
      exact List.find?_cons_of_pos _ hpa
    · have hne : e ≠ a := fun h => hpa (h ▸ hpe)
      have he2 : e ∈ t := (List.mem_cons.mp he).resolve_left hne
      rw [List.find?_cons_of_neg _ hpa]
      exact ih he2 (fun b hb hpb => huniq b (List.mem_cons_of_mem _ hb) hpb)

theorem eq_of_pairwise_ids {l : List (Nat × α × Nat)}
    (hU : l.Pairwise (fun a b => a.1 ≠ b.1)) {a b : Nat × α × Nat}
    (ha : a ∈ l) (hb : b ∈ l) (h : a.1 = b.1) : a = b := by
  by_contra hne
  exact (List.Pairwise.forall (fun x y hxy => Ne.symm hxy) hU ha hb hne) h

theorem eq_of_pairwise_vals {l : List (Nat × α × Nat)}
    (hU : l.Pairwise (fun a b => a.2.1 ≠ b.2.1)) {a b : Nat × α × Nat}
    (ha : a ∈ l) (hb : b ∈ l) (h : a.2.1 = b.2.1) : a = b := by
  by_contra hne
  exact (List.Pairwise.forall (fun x y hxy => Ne.symm hxy) hU ha hb hne) h

theorem findIdL_eq_of_uniq {l : List (Nat × α × Nat)}
    (hU : l.Pairwise (fun a b => a.1 ≠ b.1)) {e : Nat × α × Nat} (he : e ∈ l) :
    findIdL l e.1 = some e := by
  refine find?_eq_some_of_mem he (by simp) ?_
  intro a ha hpa
  exact eq_of_pairwise_ids hU ha he (by simpa using hpa)

theorem findValL_eq_of_uniq {l : List (Nat × α × Nat)}
    (hU : l.Pairwise (fun a b => a.2.1 ≠ b.2.1)) {e : Nat × α × Nat} (he : e ∈ l) :
    findValL l e.2.1 = some e := by
  refine find?_eq_some_of_mem he (by simp) ?_
  intro a ha hpa
  exact eq_of_pairwise_vals hU ha he (by simpa using hpa)

theorem fst_incEntry (i : Nat) (e : Nat × α × Nat) :
    (if e.1 = i then (e.1, e.2.1, e.2.2 + 1) else e).1 = e.1 := by
  split <;> rfl

theorem val_incEntry (i : Nat) (e : Nat × α × Nat) :
    (if e.1 = i then (e.1, e.2.1, e.2.2 + 1) else e).2.1 = e.2.1 := by
  split <;> rfl

theorem fst_decEntry (i : Nat) (e : Nat × α × Nat) :
    (if e.1 = i then (e.1, e.2.1, e.2.2 - 1) else e).1 = e.1 := by
  split <;> rfl

theorem val_decEntry (i : Nat) (e : Nat × α × Nat) :
    (if e.1 = i then (e.1, e.2.1, e.2.2 - 1) else e).2.1 = e.2.1 := by
  split <;> rfl

theorem pairwise_ids_incRefL {l : List (Nat × α × Nat)} {i : Nat}
    (h : l.Pairwise (fun a b => a.1 ≠ b.1)) :
    (incRefL l i).Pairwise (fun a b => a.1 ≠ b.1) :=
  List.Pairwise.map _ (fun a b hab => by rw [fst_incEntry, fst_incEntry]; exact hab) h

theorem pairwise_vals_incRefL {l : List (Nat × α × Nat)} {i : Nat}
    (h : l.Pairwise (fun a b => a.2.1 ≠ b.2.1)) :
    (incRefL l i).Pairwise (fun a b => a.2.1 ≠ b.2.1) :=
  List.Pairwise.map _ (fun a b hab => by rw [val_incEntry, val_incEntry]; exact hab) h

theorem pairwise_ids_decRefL {l : List (Nat × α × Nat)} {i : Nat}
    (h : l.Pairwise (fun a b => a.1 ≠ b.1)) :
    (decRefL l i).Pairwise (fun a b => a.1 ≠ b.1) :=
  List.Pairwise.map _ (fun a b hab => by rw [fst_decEntry, fst_decEntry]; exact hab) h

theorem pairwise_vals_decRefL {l : List (Nat × α × Nat)} {i : Nat}
    (h : l.Pairwise (fun a b => a.2.1 ≠ b.2.1)) :
    (decRefL l i).Pairwise (fun a b => a.2.1 ≠ b.2.1) :=
  List.Pairwise.map _ (fun a b hab => by rw [val_decEntry, val_decEntry]; exact hab) h

theorem incRefL_of_ne {l : List (Nat × α × Nat)} {i : Nat}
    (h : ∀ e ∈ l, e.1 ≠ i) : incRefL l i = l := by
  unfold incRefL
  rw [List.map_congr_left (g := id) (fun e he => by simp [h e he])]
  exact List.map_id l

theorem incRefL_append_entry {l : List (Nat × α × Nat)} {i c : Nat} {v : α}
    (h : ∀ e ∈ l, e.1 ≠ i) :
    incRefL (l ++ [(i, v, c)]) i = l ++ [(i, v, c + 1)] := by
  unfold incRefL
  rw [List.map_append]
  congr 1
  · exact incRefL_of_ne h
  · simp [incRefL]

theorem decRefL_append_entry {l : List (Nat × α × Nat)} {i c : Nat} {v : α}
    (h : ∀ e ∈ l, e.1 ≠ i) :
    decRefL (l ++ [(i, v, c)]) i = l ++ [(i, v, c - 1)] := by
  unfold decRefL
  rw [List.map_append]
  congr 1
  · rw [List.map_congr_left (g := id) (fun e he => by simp [h e he])]
    exact List.map_id l
  · simp

theorem decRefL_incRefL_cancel (l : List (Nat × α × Nat)) (i : Nat) :
    decRefL (incRefL l i) i = l := by
  unfold decRefL incRefL
  rw [List.map_map]
  rw [List.map_congr_left (g := id) ?_]
  · exact List.map_id l
  · intro e _
    by_cases h : e.1 = i
    · subst h
      simp
    · simp [h]

theorem count_eraseIdx {l : List Nat} {i a : Nat} (h : l.get? i = some a) (x : Nat) :
    l.count x = (l.eraseIdx i).count x + (if x = a then 1 else 0) := by
  induction l generalizing i with
  | nil => cases h
  | cons b t ih =>
    cases i with
    | zero =>
      injection h with h
      subst h
      rcases eq_or_ne x b with rfl | hne
      · simp [List.eraseIdx, List.count_cons]
      · simp [List.eraseIdx, List.count_cons, hne, Ne.symm hne]
    | succ i =>
      have h2 : t.get? i = some a := h
      have := ih h2
      simp only [List.eraseIdx, List.count_cons]
      omega

theorem count_set_handles {l : List Nat} {i old : Nat} (h : l.get? i = some old)
    (a x : Nat) :
    (l.set i a).count x + (if x = old then 1 else 0)
      = l.count x + (if x = a then 1 else 0) := by
  induction l generalizing i with
  | nil => cases h
  | cons b t ih =>
    cases i with
    | zero =>
      injection h with h
      subst h
      simp only [List.set]
      simp [List.count_cons]
      split_ifs <;> omega
    | succ i =>
      have h2 : t.get? i = some old := h
      have := ih h2
      simp only [List.set, List.count_cons]
      omega

/-! ### Preservation of well-formedness by the acquire/release primitives -/

theorem WF5_inc {E : List (Nat × α × Nat)} {n : Nat} {H : List Nat} {tgt : Nat}
    (hWF : WF5 E n H) (he : ∃ e ∈ E, e.1 = tgt) :
    WF5 (incRefL E tgt) n (tgt :: H) := by
  obtain ⟨hlt, hUI, hUV, hcov, hcnt⟩ := hWF
  obtain ⟨et, hetE, hetid⟩ := he
  refine ⟨?_, pairwise_ids_incRefL hUI, pairwise_vals_incRefL hUV, ?_, ?_⟩
  · intro e' he'
    obtain ⟨e, heE, hfe⟩ := List.mem_map.mp he'
    rw [← hfe, fst_incEntry]
    exact hlt e heE
  · intro h hh
    rcases List.mem_cons.mp hh with rfl | hh2
    · exact ⟨_, List.mem_map_of_mem _ hetE, by rw [fst_incEntry]; exact hetid⟩
    · obtain ⟨e, heE, heid⟩ := hcov h hh2
      exact ⟨_, List.mem_map_of_mem _ heE, by rw [fst_incEntry]; exact heid⟩
  · intro e' he'
    obtain ⟨e, heE, hfe⟩ := List.mem_map.mp he'
    obtain ⟨hc, h1⟩ := hcnt e heE
    by_cases h : e.1 = tgt
    · rw [if_pos h] at hfe
      rw [← hfe]
      simp only
      rw [h, List.count_cons_self]
      rw [h] at hc
      omega
    · rw [if_neg h] at hfe
      rw [← hfe, List.count_cons_of_ne h]
      exact ⟨hc, h1⟩

theorem WF5_new {E : List (Nat × α × Nat)} {n : Nat} {H : List Nat} {v : α}
    (hWF : WF5 E n H) (hv : ∀ e ∈ E, e.2.1 ≠ v) :
    WF5 (E ++ [(n, v, 1)]) (n + 1) (n :: H) := by
  obtain ⟨hlt, hUI, hUV, hcov, hcnt⟩ := hWF
  have hnH : n ∉ H := by
    intro hn
    obtain ⟨e, heE, heid⟩ := hcov n hn
    exact absurd heid (Nat.ne_of_lt (hlt e heE))
  refine ⟨?_, ?_, ?_, ?_, ?_⟩
  · intro e he
    rcases List.mem_append.mp he with h | h
    · exact Nat.lt_succ_of_lt (hlt e h)
    · simp at h
      subst h
      exact Nat.lt_succ_self n
  · rw [List.pairwise_append]
    refine ⟨hUI, by simp, ?_⟩
    intro a ha b hb
    simp at hb
    subst hb
    exact Nat.ne_of_lt (hlt a ha)
  · rw [List.pairwise_append]
    refine ⟨hUV, by simp, ?_⟩
    intro a ha b hb
    simp at hb
    subst hb
    exact hv a ha
  · intro h hh
    rcases List.mem_cons.mp hh with rfl | hh2
    · exact ⟨(h, v, 1), by simp, rfl⟩
    · obtain ⟨e, heE, heid⟩ := hcov h hh2
      exact ⟨e, List.mem_append_left _ heE, heid⟩
  · intro e he
    rcases List.mem_append.mp he with h | h
    · obtain ⟨hc, h1⟩ := hcnt e h
      rw [List.count_cons_of_ne (Nat.ne_of_lt (hlt e h))]
      exact ⟨hc, h1⟩
    · simp at h
      subst h
      refine ⟨?_, le_refl 1⟩
      simp only
      rw [List.count_cons_self, List.count_eq_zero_of_not_mem hnH]

theorem WF5_release {E : List (Nat × α × Nat)} {n : Nat} {H Hp : List Nat} {old : Nat}
    (hWF : WF5 E n H) (hold : old ∈ H)
    (hc1 : Hp.count old + 1 = H.count old)
    (hc2 : ∀ x, x ≠ old → Hp.count x = H.count x)
    (hsub : ∀ h ∈ Hp, h ∈ H) :
    WF5 (releaseL E old) n Hp := by
  obtain ⟨hlt, hUI, hUV, hcov, hcnt⟩ := hWF
  obtain ⟨eo, heo, heoid⟩ := hcov old hold
  have hfind : findIdL E old = some eo := by
    rw [← heoid]
    exact findIdL_eq_of_uniq hUI heo
  obtain ⟨heoc, heo1⟩ := hcnt eo heo
  rw [heoid] at heoc
  unfold releaseL
  rw [hfind]
  show WF5 (if eo.2.2 ≤ 1 then eraseValL E eo.2.1 else decRefL E old) n Hp
  by_cases hle : eo.2.2 ≤ 1
  · rw [if_pos hle]
    have hcount0 : Hp.count old = 0 := by omega
    have holdnotin : old ∉ Hp := by
      intro hin
      have := List.count_pos_iff.mpr hin
      omega
    refine ⟨?_, ?_, ?_, ?_, ?_⟩
    · intro e he
      exact hlt e (List.mem_of_mem_filter he)
    · exact List.Pairwise.sublist (List.filter_sublist _) hUI
    · exact List.Pairwise.sublist (List.filter_sublist _) hUV
    · intro h hh
      obtain ⟨e, heE, heid⟩ := hcov h (hsub h hh)
      have hne : e ≠ eo := by
        intro heq
        apply holdnotin
        have hoh : old = h := by rw [← heoid, ← heq, heid]
        exact hoh ▸ hh
      have hvne : e.2.1 ≠ eo.2.1 := fun hveq => hne (eq_of_pairwise_vals hUV heE heo hveq)
      refine ⟨e, List.mem_filter.mpr ⟨heE, by simpa using hvne⟩, heid⟩
    · intro e he
      have heE : e ∈ E := List.mem_of_mem_filter he
      have hpe : e.2.1 ≠ eo.2.1 := by
        have := (List.mem_filter.mp he).2
        simpa using this
      have hene : e ≠ eo := fun heq => hpe (by rw [heq])
      have hidne : e.1 ≠ old := by
        intro heq
        exact hene (eq_of_pairwise_ids hUI heE heo (by rw [heq, heoid]))
      obtain ⟨hc, h1⟩ := hcnt e heE
      rw [hc2 e.1 hidne]
      exact ⟨hc, h1⟩
  · rw [if_neg hle]
    refine ⟨?_, pairwise_ids_decRefL hUI, pairwise_vals_decRefL hUV, ?_, ?_⟩
    · intro e' he'
      obtain ⟨e, heE, hfe⟩ := List.mem_map.mp he'
      rw [← hfe, fst_decEntry]
      exact hlt e heE
    · intro h hh
      obtain ⟨e, heE, heid⟩ := hcov h (hsub h hh)
      exact ⟨_, List.mem_map_of_mem _ heE, by rw [fst_decEntry]; exact heid⟩
    · intro e' he'
      obtain ⟨e, heE, hfe⟩ := List.mem_map.mp he'
      obtain ⟨hc, h1⟩ := hcnt e heE
      by_cases h : e.1 = old
      · have heq : e = eo := eq_of_pairwise_ids hUI heE heo (by rw [h, heoid])
        rw [if_pos h] at hfe
        rw [← hfe]
        simp only
        rw [h]
        have he22 : e.2.2 = eo.2.2 := by rw [heq]
        exact ⟨by omega, by omega⟩
      · rw [if_neg h] at hfe
        rw [← hfe, hc2 e.1 h]
        exact ⟨hc, h1⟩

/-- Acquire-then-release with the acquired handle overwriting slot `i` of the
handle list: the shape shared by `operator=(const T&)`, `operator=(const
interned&)` and `operator=(interned&&)`. -/
theorem WF5_assign_core {E1 : List (Nat × α × Nat)} {n1 : Nat} {H : List Nat}
    {i old tgt : Nat} (hW1 : WF5 E1 n1 (tgt :: H)) (hi : H.get? i = some old) :
    WF5 (releaseL E1 old) n1 (H.set i tgt) := by
  have hold : old ∈ H := List.get?_mem hi
  apply WF5_release hW1 (List.mem_cons_of_mem _ hold)
  · have h1 := count_set_handles hi tgt old
    rw [if_pos rfl] at h1
    have h2 : List.count old (tgt :: H) = List.count old H + if old = tgt then 1 else 0 := by
      rcases eq_or_ne old tgt with rfl | hne
      · simp
      · simp [hne, List.count_cons_of_ne hne]
    omega
  · intro x hx
    have h1 := count_set_handles hi tgt x
    have h2 : List.count x (tgt :: H) = List.count x H + if x = tgt then 1 else 0 := by
      rcases eq_or_ne x tgt with rfl | hne
      · simp
      · simp [hne, List.count_cons_of_ne hne]
    have h3 : (if x = old then 1 else 0) = 0 := by simp [hx]
    omega
  · intro h hh
    rcases List.mem_or_eq_of_mem_set hh with h1 | rfl
    · exact List.mem_cons_of_mem _ h1
    · exact List.mem_cons_self _ _

/-- C10: the refcount invariant — every store entry's reference count equals
the number of live handles referring to it (hence at least one), with entry
ids and values unique — is preserved by every `interned` operation:
construction from a value, copy construction, move construction, destruction,
assignment from a value, copy assignment and move assignment; and the move
operations act on the store exactly as the copy operations (the moved-from
handle keeps its reference, released only on its own destruction). -/
theorem claim_C10_refcount_invariant {α : Type} [DecidableEq α]
    (sys : InternSys α) (hWF : SysWF sys) :
    (∀ v, SysWF (sysFromValue sys v)) ∧
    (∀ i, SysWF (sysCopyCon sys i)) ∧
    (∀ i, SysWF (sysMoveCon sys i)) ∧
    (∀ i, SysWF (sysDestroy sys i)) ∧
    (∀ i v, SysWF (sysAssignValue sys i v)) ∧
    (∀ i j, SysWF (sysCopyAssign sys i j)) ∧
    (∀ i j, SysWF (sysMoveAssign sys i j)) ∧
    (∀ i, sysMoveCon sys i = sysCopyCon sys i) ∧
    (∀ i j, sysMoveAssign sys i j = sysCopyAssign sys i j) := by
  have hfrom : ∀ v, SysWF (sysFromValue sys v) := by
    intro v
    cases hfv : findValL sys.store.entries v with
    | some e =>
      have h1 : sysFromValue sys v =
          ⟨⟨incRefL sys.store.entries e.1, sys.store.nextId⟩, e.1 :: sys.handles⟩ := by
        simp [sysFromValue, internFromValue, insertVal, acquireS, hfv]
      rw [h1]
      exact WF5_inc hWF ⟨e, List.mem_of_find?_eq_some hfv, rfl⟩
    | none =>
      have hv : ∀ e ∈ sys.store.entries, e.2.1 ≠ v := by
        have := List.find?_eq_none.mp hfv
        intro e he
        simpa using this e he
      have hlt := hWF.1
      have h1 : sysFromValue sys v =
          ⟨⟨sys.store.entries ++ [(sys.store.nextId, v, 1)], sys.store.nextId + 1⟩,
            sys.store.nextId :: sys.handles⟩ := by
        simp [sysFromValue, internFromValue, insertVal, acquireS, hfv,
          incRefL_append_entry (fun e he => Nat.ne_of_lt (hlt e he))]
      rw [h1]
      exact WF5_new hWF hv
  have hcopy : ∀ i, SysWF (sysCopyCon sys i) := by
    intro i
    cases hi : sys.handles.get? i with
    | none =>
      have hi' : sys.handles[i]? = none := by rw [← List.get?_eq_getElem?]; exact hi
      simpa [sysCopyCon, hi'] using hWF
    | some h =>
      have hi' : sys.handles[i]? = some h := by rw [← List.get?_eq_getElem?]; exact hi
      have h1 : sysCopyCon sys i =
          ⟨⟨incRefL sys.store.entries h, sys.store.nextId⟩, h :: sys.handles⟩ := by
        simp [sysCopyCon, internCopy, acquireS, hi']
      rw [h1]
      exact WF5_inc hWF (hWF.2.2.2.1 h (List.get?_mem hi))
  have hdestroy : ∀ i, SysWF (sysDestroy sys i) := by
    intro i
    cases hi : sys.handles.get? i with
    | none =>
      have hi' : sys.handles[i]? = none := by rw [← List.get?_eq_getElem?]; exact hi
      simpa [sysDestroy, hi'] using hWF
    | some h =>
      have hi' : sys.handles[i]? = some h := by rw [← List.get?_eq_getElem?]; exact hi
      have h1 : sysDestroy sys i =
          ⟨⟨releaseL sys.store.entries h, sys.store.nextId⟩, sys.handles.eraseIdx i⟩ := by
        simp [sysDestroy, internDestroy, hi']
      rw [h1]
      show WF5 (releaseL sys.store.entries h) sys.store.nextId (sys.handles.eraseIdx i)
      apply WF5_release hWF (List.get?_mem hi)
      · have hce := count_eraseIdx hi h
        rw [if_pos rfl] at hce
        omega
      · intro x hx
        have hce := count_eraseIdx hi x
        rw [if_neg hx] at hce
        omega
      · intro a ha
        exact (List.eraseIdx_sublist sys.handles i).subset ha
  have hassign : ∀ i v, SysWF (sysAssignValue sys i v) := by
    intro i v
    cases hi : sys.handles.get? i with
    | none =>
      have hi' : sys.handles[i]? = none := by rw [← List.get?_eq_getElem?]; exact hi
      simpa [sysAssignValue, hi'] using hWF
    | some old =>
      have hi' : sys.handles[i]? = some old := by rw [← List.get?_eq_getElem?]; exact hi
      cases hfv : findValL sys.store.entries v with
      | some e =>
        have h1 : sysAssignValue sys i v =
            ⟨⟨releaseL (incRefL sys.store.entries e.1) old, sys.store.nextId⟩,
              sys.handles.set i e.1⟩ := by
          simp [sysAssignValue, internAssignValue, insertVal, acquireS, hi', hfv]
        rw [h1]
        show WF5 (releaseL (incRefL sys.store.entries e.1) old) sys.store.nextId
          (sys.handles.set i e.1)
        exact WF5_assign_core (WF5_inc hWF ⟨e, List.mem_of_find?_eq_some hfv, rfl⟩) hi
      | none =>
        have hv : ∀ e ∈ sys.store.entries, e.2.1 ≠ v := by
          have := List.find?_eq_none.mp hfv
          intro e he
          simpa using this e he
        have hlt := hWF.1
        have h1 : sysAssignValue sys i v =
            ⟨⟨releaseL (sys.store.entries ++ [(sys.store.nextId, v, 1)]) old,
                sys.store.nextId + 1⟩, sys.handles.set i sys.store.nextId⟩ := by
          simp [sysAssignValue, internAssignValue, insertVal, acquireS, hi', hfv,
            incRefL_append_entry (fun e he => Nat.ne_of_lt (hlt e he))]
        rw [h1]
        show WF5 (releaseL (sys.store.entries ++ [(sys.store.nextId, v, 1)]) old)
          (sys.store.nextId + 1) (sys.handles.set i sys.store.nextId)
        exact WF5_assign_core (WF5_new hWF hv) hi
  have hcopyassign : ∀ i j, SysWF (sysCopyAssign sys i j) := by
    intro i j
    cases hi : sys.handles.get? i with
    | none =>
      have hi' : sys.handles[i]? = none := by rw [← List.get?_eq_getElem?]; exact hi
      simpa [sysCopyAssign, hi'] using hWF
    | some old =>
      have hi' : sys.handles[i]? = some old := by rw [← List.get?_eq_getElem?]; exact hi
      cases hj : sys.handles.get? j with
      | none =>
        have hj' : sys.handles[j]? = none := by rw [← List.get?_eq_getElem?]; exact hj
        simpa [sysCopyAssign, hi', hj'] using hWF
      | some tgt =>
        have hj' : sys.handles[j]? = some tgt := by rw [← List.get?_eq_getElem?]; exact hj
        have h1 : sysCopyAssign sys i j =
            ⟨⟨releaseL (incRefL sys.store.entries tgt) old, sys.store.nextId⟩,
              sys.handles.set i tgt⟩ := by
          simp [sysCopyAssign, acquireS, hi', hj']
        rw [h1]
        show WF5 (releaseL (incRefL sys.store.entries tgt) old) sys.store.nextId
          (sys.handles.set i tgt)
        exact WF5_assign_core (WF5_inc hWF (hWF.2.2.2.1 tgt (List.get?_mem hj))) hi
  exact ⟨hfrom, hcopy, fun i => hcopy i, hdestroy, hassign, hcopyassign,
    fun i j => hcopyassign i j, fun i => rfl, fun i j => rfl⟩

theorem claim_C10_witness :
    SysWF (InternSys.mk (α := Nat) ⟨[(0, 42, 2)], 1⟩ [0, 0]) ∧
    SysWF (sysFromValue (InternSys.mk (α := Nat) ⟨[(0, 42, 2)], 1⟩ [0, 0]) 7) ∧
    SysWF (sysDestroy (InternSys.mk (α := Nat) ⟨[(0, 42, 2)], 1⟩ [0, 0]) 1) ∧
    sysMoveCon (InternSys.mk (α := Nat) ⟨[(0, 42, 2)], 1⟩ [0, 0]) 0
      = sysCopyCon (InternSys.mk (α := Nat) ⟨[(0, 42, 2)], 1⟩ [0, 0]) 0 := by
  have hWF : SysWF (InternSys.mk (α := Nat) ⟨[(0, 42, 2)], 1⟩ [0, 0]) := by
    refine ⟨by simp, by simp, by simp, ?_, ?_⟩
    · intro h hh
      simp at hh
      subst hh
      exact ⟨(0, 42, 2), by simp, rfl⟩
    · intro e he
      simp at he
      subst he
      simp [List.count_cons]
  refine ⟨hWF, ?_, ?_, ?_⟩
  · exact (claim_C10_refcount_invariant _ hWF).1 7
  · exact (claim_C10_refcount_invariant _ hWF).2.2.2.1 1
  · exact (claim_C10_refcount_invariant _ hWF).2.2.2.2.2.2.2.1 0

/-- C6: interning idempotence.  Starting from any store without an entry for
`v` (and with entry ids below the fresh counter), constructing two handles
from `v` yields pointer-equal handles and exactly one live entry for `v`;
destroying one handle leaves the other's entry in the store; destroying both
removes one entry in total, returning `size()` to its starting value, with the
entry for `v` gone. -/
theorem claim_C6_intern_idempotence {α : Type} [DecidableEq α]
    (s : InternStore α) (v : α)
    (hv : ∀ e ∈ s.entries, e.2.1 ≠ v) (hid : ∀ e ∈ s.entries, e.1 < s.nextId)
    {h1 h2 : Nat} {s2 s3 : InternStore α}
    (hc1 : internFromValue s v = (h1, s2))
    (hc2 : internFromValue s2 v = (h2, s3)) :
    h1 = h2 ∧
    (s3.entries.filter (fun e => decide (e.2.1 = v))).length = 1 ∧
    internSize s3 = internSize s + 1 ∧
    (∃ e ∈ (internDestroy s3 h1).entries, e.1 = h2 ∧ e.2.1 = v) ∧
    internSize (internDestroy s3 h1) = internSize s + 1 ∧
    internSize (internDestroy (internDestroy s3 h1) h2) = internSize s ∧
    findValL (internDestroy (internDestroy s3 h1) h2).entries v = none := by
  have hne : ∀ e ∈ s.entries, e.1 ≠ s.nextId := fun e he => Nat.ne_of_lt (hid e he)
  have hfv1 : findValL s.entries v = none := by
    unfold findValL
    rw [List.find?_eq_none]
    intro e he
    simpa using hv e he
  have e1 : internFromValue s v =
      (s.nextId, ⟨s.entries ++ [(s.nextId, v, 1)], s.nextId + 1⟩) := by
    simp [internFromValue, insertVal, acquireS, hfv1, incRefL_append_entry hne]
  rw [e1] at hc1
  injection hc1 with hh1 hs2
  subst hh1
  subst hs2
  have hfv2 : findValL (s.entries ++ [(s.nextId, v, 1)]) v = some (s.nextId, v, 1) := by
    unfold findValL at hfv1 ⊢
    rw [List.find?_append, hfv1]
    simp
  have e2 : internFromValue (⟨s.entries ++ [(s.nextId, v, 1)], s.nextId + 1⟩ : InternStore α) v =
      (s.nextId, ⟨s.entries ++ [(s.nextId, v, 2)], s.nextId + 1⟩) := by
    simp only [internFromValue, insertVal, acquireS, hfv2]
    rw [incRefL_append_entry hne]
  rw [e2] at hc2
  injection hc2 with hh2 hs3
  subst hh2
  subst hs3
  have hfid2 : findIdL (s.entries ++ [(s.nextId, v, 2)]) s.nextId = some (s.nextId, v, 2) := by
    unfold findIdL
    rw [List.find?_append]
    rw [List.find?_eq_none.mpr (by intro e he; simpa using hne e he)]
    simp
  have e3 : releaseL (s.entries ++ [(s.nextId, v, 2)]) s.nextId
      = s.entries ++ [(s.nextId, v, 1)] := by
    unfold releaseL
    rw [hfid2]
    show (if (2 : Nat) ≤ 1 then _ else _) = _
    rw [if_neg (by omega)]
    exact decRefL_append_entry hne
  have hfid1 : findIdL (s.entries ++ [(s.nextId, v, 1)]) s.nextId = some (s.nextId, v, 1) := by
    unfold findIdL
    rw [List.find?_append]
    rw [List.find?_eq_none.mpr (by intro e he; simpa using hne e he)]
    simp
  have e4 : releaseL (s.entries ++ [(s.nextId, v, 1)]) s.nextId = s.entries := by
    unfold releaseL
    rw [hfid1]
    show (if (1 : Nat) ≤ 1 then eraseValL _ v else _) = _
    rw [if_pos (by omega)]
    unfold eraseValL
    rw [List.filter_append]
    rw [List.filter_eq_self.mpr (by intro e he; simpa using hv e he)]
    simp
  refine ⟨rfl, ?_, ?_, ?_, ?_, ?_, ?_⟩
  · rw [List.filter_append]
    rw [List.filter_eq_nil_iff.mpr (by intro e he; simpa using hv e he)]
    simp
  · simp [internSize]
  · refine ⟨(s.nextId, v, 1), ?_, rfl, rfl⟩
    show _ ∈ (⟨releaseL (s.entries ++ [(s.nextId, v, 2)]) s.nextId, _⟩ : InternStore α).entries
    rw [e3]
    simp
  · show (⟨releaseL (s.entries ++ [(s.nextId, v, 2)]) s.nextId, _⟩ : InternStore α).entries.length
      = s.entries.length + 1
    rw [e3]
    simp
  · show (releaseL (releaseL (s.entries ++ [(s.nextId, v, 2)]) s.nextId) s.nextId).length
      = s.entries.length
    rw [e3, e4]
  · show findValL (releaseL (releaseL (s.entries ++ [(s.nextId, v, 2)]) s.nextId) s.nextId) v
      = none
    rw [e3, e4]
    exact hfv1

theorem claim_C6_witness :
    ((∀ e ∈ (⟨[], 0⟩ : InternStore Nat).entries, e.2.1 ≠ 42) ∧
      (∀ e ∈ (⟨[], 0⟩ : InternStore Nat).entries, e.1 < 0) ∧
      internFromValue (⟨[], 0⟩ : InternStore Nat) 42 = (0, ⟨[(0, 42, 1)], 1⟩) ∧
      internFromValue (⟨[(0, 42, 1)], 1⟩ : InternStore Nat) 42 = (0, ⟨[(0, 42, 2)], 1⟩)) ∧
    (internSize (⟨[(0, 42, 2)], 1⟩ : InternStore Nat)
        = internSize (⟨[], 0⟩ : InternStore Nat) + 1 ∧
      internSize (internDestroy (internDestroy (⟨[(0, 42, 2)], 1⟩ : InternStore Nat) 0) 0)
        = internSize (⟨[], 0⟩ : InternStore Nat)) := by
  have hmain := claim_C6_intern_idempotence (⟨[], 0⟩ : InternStore Nat) 42
    (by simp) (by simp) rfl rfl
  exact ⟨⟨by simp, by simp, rfl, rfl⟩, hmain.2.2.1, hmain.2.2.2.2.2.1⟩

/-- C7: self-assignment safety.  Assigning a live handle's current value back
to itself leaves the store (and hence `size()`) exactly as it was, and never
transiently erases the entry: the refcount is incremented before the old
reference is released, so the intermediate store still contains the entry. -/
theorem claim_C7_self_assign_safety {α : Type} [DecidableEq α]
    (s : InternStore α) (xid : Nat) (v : α) (n0 : Nat)
    (hUI : s.entries.Pairwise (fun a b => a.1 ≠ b.1))
    (hUV : s.entries.Pairwise (fun a b => a.2.1 ≠ b.2.1))
    (hm : (xid, v, n0) ∈ s.entries) (hn : 1 ≤ n0) :
    internAssignValue s xid v = (xid, s) ∧
    (∃ e ∈ incRefL s.entries xid, e.1 = xid ∧ e.2.1 = v) ∧
    internSize ⟨incRefL s.entries xid, s.nextId⟩ = internSize s := by
  have hfv : findValL s.entries v = some (xid, v, n0) := by
    have := findValL_eq_of_uniq hUV hm
    simpa using this
  have hmem1 : (xid, v, n0 + 1) ∈ incRefL s.entries xid := by
    have heq : (fun e : Nat × α × Nat => if e.1 = xid then (e.1, e.2.1, e.2.2 + 1) else e)
        (xid, v, n0) = (xid, v, n0 + 1) := by simp
    rw [← heq]
    exact List.mem_map_of_mem _ hm
  have hUI1 : (incRefL s.entries xid).Pairwise (fun a b => a.1 ≠ b.1) :=
    pairwise_ids_incRefL hUI
  have hfid : findIdL (incRefL s.entries xid) xid = some (xid, v, n0 + 1) := by
    have := findIdL_eq_of_uniq hUI1 hmem1
    simpa using this
  refine ⟨?_, ⟨(xid, v, n0 + 1), hmem1, rfl, rfl⟩, by simp [internSize, incRefL]⟩
  have hrel : releaseL (incRefL s.entries xid) xid = s.entries := by
    unfold releaseL
    rw [hfid]
    show (if n0 + 1 ≤ 1 then _ else _) = _
    rw [if_neg (by omega)]
    exact decRefL_incRefL_cancel s.entries xid
  simp [internAssignValue, insertVal, acquireS, hfv, hrel]

theorem claim_C7_witness :
    ((⟨[(0, 42, 1)], 1⟩ : InternStore Nat).entries.Pairwise (fun a b => a.1 ≠ b.1) ∧
      (⟨[(0, 42, 1)], 1⟩ : InternStore Nat).entries.Pairwise (fun a b => a.2.1 ≠ b.2.1) ∧
      ((0 : Nat), (42 : Nat), (1 : Nat)) ∈ (⟨[(0, 42, 1)], 1⟩ : InternStore Nat).entries ∧
      1 ≤ 1) ∧
    internAssignValue (⟨[(0, 42, 1)], 1⟩ : InternStore Nat) 0 42
      = (0, (⟨[(0, 42, 1)], 1⟩ : InternStore Nat)) :=
  ⟨⟨by simp, by simp, by simp, le_refl 1⟩,
   (claim_C7_self_assign_safety (⟨[(0, 42, 1)], 1⟩ : InternStore Nat) 0 42 1
     (by simp) (by simp) (by simp) (le_refl 1)).1⟩

end SingleFileLibs
